import Mathlib

/-!
Verification of the pyGSTi estimation-engine specification.

The estimation engine (Model probability evaluation, DataSet, LGST solver,
Estimate container) is embedded shallowly: states and POVM effects are
vectors over `ℚ` in a fixed `n`-dimensional Liouville representation, layer
operations and instrument branches are `n × n` matrices, and label
registries are association lists keyed by strings.
-/

open Matrix

/-- Association-list lookup used for every label registry. -/
def alookup {κ α : Type} [DecidableEq κ] : List (κ × α) → κ → Option α
  | [], _ => none
  | (k, v) :: rest, s => if k = s then some v else alookup rest s

theorem alookup_mem {κ α : Type} [DecidableEq κ] (l : List (κ × α)) (s : κ) (v : α)
    (h : alookup l s = some v) : (s, v) ∈ l := by
  induction l with
  | nil => simp [alookup] at h
  | cons p rest ih =>
    obtain ⟨k, w⟩ := p
    by_cases hk : k = s
    · subst hk
      simp [alookup] at h
      simp [h]
    · simp [alookup, hk] at h
      exact List.mem_cons_of_mem _ (ih h)

theorem alookup_map {κ α β : Type} [DecidableEq κ] (f : α → β) (l : List (κ × α)) (s : κ) :
    alookup (l.map fun p => (p.1, f p.2)) s = (alookup l s).map f := by
  induction l with
  | nil => simp [alookup]
  | cons p rest ih =>
    by_cases hk : p.1 = s
    · simp [alookup, hk]
    · simp [alookup, hk, ih]

/-- An outcome tuple: the sequence of instrument outcome labels observed
during a circuit, terminated by a final POVM effect label. -/
abbrev Outcome := List String

/-- Modelled from the spec: the `Model` object of the Operator Algebra
component (absent from `src/`, which holds only notebook callers).  A model
owns a preparation vector, a registry of POVM effect vectors, a registry of
layer operations and a registry of instruments (each instrument a list of
labeled branch operators), all in a fixed `n`-dimensional real (here
rational) Liouville representation. -/
structure Model (n : ℕ) where
  prep : Fin n → ℚ
  effects : List (String × (Fin n → ℚ))
  operations : List (String × Matrix (Fin n) (Fin n) ℚ)
  instruments : List (String × List (String × Matrix (Fin n) (Fin n) ℚ))

/-- A branch of an in-progress circuit evaluation: the instrument outcomes
observed so far, paired with the running state vector. -/
abbrev Branch (n : ℕ) := Outcome × (Fin n → ℚ)

/-- Modelled from the spec: the layer loop of `probabilities(circuit)`.
Each layer label is looked up among the layer operations and applied to
every running branch state; an instrument label maps every branch by each
of its branch operators, tagging each sub-branch with that branch outcome
label; a label registered nowhere aborts the evaluation with a
Missing-Operator error naming the label. -/
def Model.evalLayers {n : ℕ} (M : Model n) :
    List String → List (Branch n) → Except String (List (Branch n))
  | [], branches => .ok branches
  | l :: rest, branches =>
    match alookup M.operations l with
    | some G => M.evalLayers rest (branches.map fun b => (b.1, G.mulVec b.2))
    | none =>
      match alookup M.instruments l with
      | some brs =>
          M.evalLayers rest
            (branches.flatMap fun b => brs.map fun br => (b.1 ++ [br.1], (br.2).mulVec b.2))
      | none => .error l

/-- Modelled from the spec: `Model.probs` / `probabilities(circuit)`.
Starting from the preparation vector, the layers are folded over the
branch list; at the end every branch state is paired with every registered
POVM effect via an inner product, keyed by the branch's instrument-outcome
labels extended with the effect label. -/
def Model.probs {n : ℕ} (M : Model n) (c : List String) :
    Except String (List (Outcome × ℚ)) :=
  (M.evalLayers c [([], M.prep)]).map fun branches =>
    branches.flatMap fun b => M.effects.map fun e => (b.1 ++ [e.1], dotProduct e.2 b.2)

/-- A circuit layer label is registered when it resolves either to a layer
operation or to an instrument of the model. -/
def Model.registered {n : ℕ} (M : Model n) (l : String) : Prop :=
  (alookup M.operations l).isSome ∨ (alookup M.instruments l).isSome

instance {n : ℕ} (M : Model n) (l : String) : Decidable (M.registered l) := by
  unfold Model.registered; infer_instance

/-- A circuit is composed only of registered labels. -/
def Model.allRegistered {n : ℕ} (M : Model n) (c : List String) : Prop :=
  ∀ l ∈ c, M.registered l

instance {n : ℕ} (M : Model n) (c : List String) : Decidable (M.allRegistered c) :=
  List.decidableBAll _ c

theorem evalLayers_ok_of_allRegistered {n : ℕ} (M : Model n) (c : List String)
    (h : M.allRegistered c) (bs : List (Branch n)) :
    ∃ res, M.evalLayers c bs = .ok res := by
  induction c generalizing bs with
  | nil => exact ⟨bs, rfl⟩
  | cons l rest ih =>
    have hl := h l (List.mem_cons_self l rest)
    have hrest : M.allRegistered rest := fun x hx => h x (List.mem_cons_of_mem _ hx)
    rcases hl with hop | hin
    · obtain ⟨G, hG⟩ := Option.isSome_iff_exists.mp hop
      simpa [Model.evalLayers, hG] using ih hrest _
    · obtain ⟨brs, hbrs⟩ := Option.isSome_iff_exists.mp hin
      cases hcase : alookup M.operations l with
      | some G => simpa [Model.evalLayers, hcase] using ih hrest _
      | none => simpa [Model.evalLayers, hcase, hbrs] using ih hrest _

theorem evalLayers_error_of_missing {n : ℕ} (M : Model n) (c : List String)
    (h : ¬ M.allRegistered c) (bs : List (Branch n)) :
    ∃ l, M.evalLayers c bs = .error l ∧ l ∈ c ∧
      alookup M.operations l = none ∧ alookup M.instruments l = none := by
  induction c generalizing bs with
  | nil => exact absurd (fun l hl => absurd hl (List.not_mem_nil l)) h
  | cons l rest ih =>
    by_cases hl : M.registered l
    · have hrest : ¬ M.allRegistered rest := by
        intro hr
        exact h (fun x hx => by
          rcases List.mem_cons.mp hx with hx | hx
          · exact hx ▸ hl
          · exact hr x hx)
      rcases hl with hop | hin
      · obtain ⟨G, hG⟩ := Option.isSome_iff_exists.mp hop
        obtain ⟨l2, hl2, hmem, hrest2⟩ := ih hrest (bs.map fun b => (b.1, G.mulVec b.2))
        exact ⟨l2, by simpa [Model.evalLayers, hG] using hl2,
          List.mem_cons_of_mem _ hmem, hrest2⟩
      · obtain ⟨brs, hbrs⟩ := Option.isSome_iff_exists.mp hin
        cases hcase : alookup M.operations l with
        | some G =>
          obtain ⟨l2, hl2, hmem, hrest2⟩ := ih hrest (bs.map fun b => (b.1, G.mulVec b.2))
          exact ⟨l2, by simpa [Model.evalLayers, hcase] using hl2,
            List.mem_cons_of_mem _ hmem, hrest2⟩
        | none =>
          obtain ⟨l2, hl2, hmem, hrest2⟩ := ih hrest
            (bs.flatMap fun b => brs.map fun br => (b.1 ++ [br.1], (br.2).mulVec b.2))
          exact ⟨l2, by simpa [Model.evalLayers, hcase, hbrs] using hl2,
            List.mem_cons_of_mem _ hmem, hrest2⟩
    · refine ⟨l, ?_, List.mem_cons_self l rest, ?_, ?_⟩
      · have hop : alookup M.operations l = none := by
          cases hcase : alookup M.operations l with
          | some G => exact absurd (Or.inl (by simp [hcase])) hl
          | none => rfl
        have hin : alookup M.instruments l = none := by
          cases hcase : alookup M.instruments l with
          | some brs => exact absurd (Or.inr (by simp [hcase])) hl
          | none => rfl
        simp [Model.evalLayers, hop, hin]
      · cases hcase : alookup M.operations l with
        | some G => exact absurd (Or.inl (by simp [hcase])) hl
        | none => rfl
      · cases hcase : alookup M.instruments l with
        | some brs => exact absurd (Or.inr (by simp [hcase])) hl
        | none => rfl

/-- Modelled from the spec: probability evaluation fails on a circuit with
an unregistered layer label by raising a Missing-Operator error naming the
label. -/
theorem probs_error_of_missing {n : ℕ} (M : Model n) (c : List String)
    (h : ¬ M.allRegistered c) :
    ∃ l, M.probs c = .error l ∧ l ∈ c ∧
      alookup M.operations l = none ∧ alookup M.instruments l = none := by
  obtain ⟨l, hl, hmem, hmiss⟩ := evalLayers_error_of_missing M c h [([], M.prep)]
  exact ⟨l, by simp [Model.probs, hl, Except.map], hmem, hmiss⟩

theorem probs_ok_of_allRegistered {n : ℕ} (M : Model n) (c : List String)
    (h : M.allRegistered c) : ∃ ps, M.probs c = .ok ps := by
  obtain ⟨res, hres⟩ := evalLayers_ok_of_allRegistered M c h [([], M.prep)]
  refine ⟨res.flatMap fun b => M.effects.map fun e => (b.1 ++ [e.1], dotProduct e.2 b.2), ?_⟩
  simp [Model.probs, hres, Except.map]

/-- C3: for every Model and circuit, a layer label absent from the Model's
registries makes probability evaluation abort with a Missing-Operator error
that names a missing label of the circuit (no silent zero-fill or skip),
while probability evaluation of any fully registered circuit on the same
Model still succeeds (the error aborts only that computation). -/
theorem C3_missing_operator_error {n : ℕ} (M : Model n) (c : List String)
    (h : ¬ M.allRegistered c) :
    (∃ l, M.probs c = .error l ∧ l ∈ c ∧
        alookup M.operations l = none ∧ alookup M.instruments l = none) ∧
    (∀ c2, M.allRegistered c2 → ∃ ps, M.probs c2 = .ok ps) :=
  ⟨probs_error_of_missing M c h, fun c2 h2 => probs_ok_of_allRegistered M c2 h2⟩

/-- A one-dimensional model registering only the layer operation "Gx",
mirroring the notebook model that lacks the parallel layer label. -/
def M3w : Model 1 :=
  { prep := fun _ => 1
    effects := [("0", fun _ => 1)]
    operations := [("Gx", fun _ _ => 1)]
    instruments := [] }

theorem C3_missing_operator_error_witness :
    (¬ M3w.allRegistered ["Gx", "Gxx"]) ∧
    ((∃ l, M3w.probs ["Gx", "Gxx"] = .error l ∧ l ∈ ["Gx", "Gxx"] ∧
        alookup M3w.operations l = none ∧ alookup M3w.instruments l = none) ∧
     (∀ c2, M3w.allRegistered c2 → ∃ ps, M3w.probs c2 = .ok ps)) := by
  have h : ¬ M3w.allRegistered ["Gx", "Gxx"] := by
    intro h
    have := h "Gxx" (by simp)
    simp [Model.registered, M3w, alookup] at this
  exact ⟨h, C3_missing_operator_error M3w ["Gx", "Gxx"] h⟩

/-- The sum of all registered POVM effect vectors of a model. -/
def Model.totalEffect {n : ℕ} (M : Model n) : Fin n → ℚ :=
  (M.effects.map Prod.snd).sum

/-- Sum of the probabilities in a probability table. -/
def sumProbs (ps : List (Outcome × ℚ)) : ℚ := (ps.map Prod.snd).sum

/-- Total mass of a branch list against an effect functional. -/
def branchMass {n : ℕ} (E : Fin n → ℚ) (bs : List (Branch n)) : ℚ :=
  (bs.map fun b => dotProduct E b.2).sum

theorem sum_list_dotProduct {n : ℕ} (l : List (Fin n → ℚ)) (v : Fin n → ℚ) :
    dotProduct l.sum v = (l.map fun e => dotProduct e v).sum := by
  induction l with
  | nil => simp
  | cons e rest ih => simp [Matrix.add_dotProduct, ih]

theorem sum_map_flatMap {α β γ : Type} [AddCommMonoid γ] (l : List α) (g : α → List β)
    (f : β → γ) :
    ((l.flatMap g).map f).sum = (l.map fun x => ((g x).map f).sum).sum := by
  induction l with
  | nil => simp
  | cons x rest ih => simp [List.flatMap_cons, ih]

/-- The normalization conditions of a physical model: the preparation has
unit mass against the summed effects, every registered layer operation
preserves the summed-effect functional, and the branches of every
registered instrument together preserve it. -/
def Model.tracePreserving {n : ℕ} (M : Model n) : Prop :=
  dotProduct M.totalEffect M.prep = 1 ∧
  (∀ p ∈ M.operations, Matrix.vecMul M.totalEffect p.2 = M.totalEffect) ∧
  (∀ p ∈ M.instruments,
    ((p.2).map fun br => Matrix.vecMul M.totalEffect br.2).sum = M.totalEffect)

theorem evalLayers_mass {n : ℕ} (M : Model n)
    (hops : ∀ p ∈ M.operations, Matrix.vecMul M.totalEffect p.2 = M.totalEffect)
    (hins : ∀ p ∈ M.instruments,
      ((p.2).map fun br => Matrix.vecMul M.totalEffect br.2).sum = M.totalEffect)
    (c : List String) (bs res : List (Branch n))
    (h : M.evalLayers c bs = .ok res) :
    branchMass M.totalEffect res = branchMass M.totalEffect bs := by
  induction c generalizing bs with
  | nil =>
    simp [Model.evalLayers] at h
    simp [h]
  | cons l rest ih =>
    cases hcase : alookup M.operations l with
    | some G =>
      rw [Model.evalLayers, hcase] at h
      have hmass := ih _ h
      rw [hmass]
      have hG := hops _ (alookup_mem _ _ _ hcase)
      simp only [branchMass, List.map_map]
      congr 1
      refine List.map_congr_left fun b _ => ?_
      simp only [Function.comp_apply]
      rw [Matrix.dotProduct_mulVec, hG]
    | none =>
      cases hcase2 : alookup M.instruments l with
      | some brs =>
        rw [Model.evalLayers, hcase, hcase2] at h
        have hmass := ih _ h
        rw [hmass]
        have hB := hins _ (alookup_mem _ _ _ hcase2)
        simp only [branchMass]
        rw [sum_map_flatMap]
        congr 1
        refine List.map_congr_left fun b _ => ?_
        simp only [List.map_map, Function.comp_apply]
        have : ∀ br : String × Matrix (Fin n) (Fin n) ℚ,
            dotProduct M.totalEffect ((br.2).mulVec b.2) =
              dotProduct (Matrix.vecMul M.totalEffect br.2) b.2 := by
          intro br
          rw [Matrix.dotProduct_mulVec]
        calc ((brs.map fun br => dotProduct M.totalEffect ((br.2).mulVec b.2))).sum
            = ((brs.map fun br => dotProduct (Matrix.vecMul M.totalEffect br.2) b.2)).sum := by
              simp only [this]
          _ = dotProduct ((brs.map fun br => Matrix.vecMul M.totalEffect br.2)).sum b.2 := by
              rw [sum_list_dotProduct, List.map_map]
              rfl
          _ = dotProduct M.totalEffect b.2 := by rw [hB]
      | none =>
        rw [Model.evalLayers, hcase, hcase2] at h
        exact absurd h (by simp)

/-- Modelled from the spec: for a trace-preserving model, the probabilities
of any fully registered circuit sum to exactly 1. -/
theorem probs_sum_one {n : ℕ} (M : Model n) (c : List String)
    (hM : M.tracePreserving) (hreg : M.allRegistered c) :
    ∃ ps, M.probs c = .ok ps ∧ sumProbs ps = 1 := by
  obtain ⟨res, hres⟩ := evalLayers_ok_of_allRegistered M c hreg [([], M.prep)]
  obtain ⟨h1, h2, h3⟩ := hM
  refine ⟨res.flatMap fun b => M.effects.map fun e => (b.1 ++ [e.1], dotProduct e.2 b.2), ?_, ?_⟩
  · simp [Model.probs, hres, Except.map]
  · have hmass := evalLayers_mass M h2 h3 c _ _ hres
    have hstep : sumProbs
        (res.flatMap fun b => M.effects.map fun e => (b.1 ++ [e.1], dotProduct e.2 b.2)) =
        branchMass M.totalEffect res := by
      simp only [sumProbs, branchMass]
      rw [sum_map_flatMap]
      refine congrArg List.sum (List.map_congr_left fun b _ => ?_)
      simp only [List.map_map, Function.comp_apply]
      rw [Model.totalEffect, sum_list_dotProduct, List.map_map]
      rfl
    rw [hstep, hmass]
    simpa [branchMass] using h1

theorem append_singleton_inj {o o2 : Outcome} {s s2 : String}
    (h : o ++ [s] = o2 ++ [s2]) : o = o2 ∧ s = s2 := by
  have h1 : o = o2 := by
    have := congrArg List.dropLast h
    simpa [List.dropLast_concat] using this
  subst h1
  exact ⟨rfl, by simpa using List.append_cancel_left h⟩

/-- Extending a duplicate-free list of outcome tuples by a duplicate-free
set of labels keeps the extended tuples duplicate-free. -/
theorem nodup_extend (os : List Outcome) (ls : List String)
    (ho : os.Nodup) (hl : ls.Nodup) :
    (os.flatMap fun o => ls.map fun s => o ++ [s]).Nodup := by
  induction os with
  | nil => simp
  | cons o rest ih =>
    have hrest : rest.Nodup := (List.nodup_cons.mp ho).2
    have hmem : o ∉ rest := (List.nodup_cons.mp ho).1
    rw [List.flatMap_cons, List.nodup_append]
    refine ⟨?_, ih hrest, ?_⟩
    · exact hl.map_on fun x _ y _ hxy => (append_singleton_inj hxy).2
    · intro x hx hx2
      obtain ⟨s, _, hs⟩ := List.mem_map.mp hx
      obtain ⟨o2, ho2, hmem2⟩ := List.mem_flatMap.mp hx2
      obtain ⟨s2, _, hs2⟩ := List.mem_map.mp hmem2
      have : o = o2 := (append_singleton_inj (hs.trans hs2.symm)).1
      exact hmem (this ▸ ho2)

/-- Registry well-formedness implied by the dictionary-backed registries of
the source `Model` object: labels within each registry are distinct. -/
def Model.wellFormed {n : ℕ} (M : Model n) : Prop :=
  (M.effects.map Prod.fst).Nodup ∧
  (M.operations.map Prod.fst).Nodup ∧
  (M.instruments.map Prod.fst).Nodup ∧
  ∀ p ∈ M.instruments, ((p.2).map Prod.fst).Nodup

instance {n : ℕ} (M : Model n) : Decidable (M.wellFormed) := by
  unfold Model.wellFormed; infer_instance

theorem evalLayers_nodup {n : ℕ} (M : Model n)
    (hins : ∀ p ∈ M.instruments, ((p.2).map Prod.fst).Nodup)
    (c : List String) (bs res : List (Branch n))
    (h : M.evalLayers c bs = .ok res) (hbs : (bs.map Prod.fst).Nodup) :
    (res.map Prod.fst).Nodup := by
  induction c generalizing bs with
  | nil =>
    simp [Model.evalLayers] at h
    exact h ▸ hbs
  | cons l rest ih =>
    cases hcase : alookup M.operations l with
    | some G =>
      rw [Model.evalLayers, hcase] at h
      exact ih _ h (by simpa [List.map_map, Function.comp] using hbs)
    | none =>
      cases hcase2 : alookup M.instruments l with
      | some brs =>
        rw [Model.evalLayers, hcase, hcase2] at h
        refine ih _ h ?_
        have hbrs := hins _ (alookup_mem _ _ _ hcase2)
        have hshape :
            ((bs.flatMap fun b => brs.map fun br => (b.1 ++ [br.1], (br.2).mulVec b.2)).map
              Prod.fst) =
            ((bs.map Prod.fst).flatMap fun o => (brs.map Prod.fst).map fun s => o ++ [s]) := by
          rw [List.map_flatMap, List.flatMap_map]
          refine congrArg _ (funext fun b => ?_)
          simp [List.map_map, Function.comp]
        rw [hshape]
        exact nodup_extend _ _ hbs hbrs
      | none =>
        rw [Model.evalLayers, hcase, hcase2] at h
        exact absurd h (by simp)

/-- Modelled from the spec: under registry well-formedness the probability
table of a registered circuit has pairwise distinct outcome-tuple keys. -/
theorem probs_keys_nodup {n : ℕ} (M : Model n) (c : List String)
    (hwf : M.wellFormed) (ps : List (Outcome × ℚ)) (h : M.probs c = .ok ps) :
    (ps.map Prod.fst).Nodup := by
  obtain ⟨heff, _, _, hins⟩ := hwf
  cases hres : M.evalLayers c [([], M.prep)] with
  | error l => simp [Model.probs, hres, Except.map] at h
  | ok res =>
    have hps : ps = res.flatMap fun b =>
        M.effects.map fun e => (b.1 ++ [e.1], dotProduct e.2 b.2) := by
      rw [Model.probs, hres] at h
      simpa [Except.map] using h.symm
    subst hps
    have hnd := evalLayers_nodup M hins c _ _ hres (by simp)
    have hshape :
        ((res.flatMap fun b => M.effects.map fun e => (b.1 ++ [e.1], dotProduct e.2 b.2)).map
          Prod.fst) =
        ((res.map Prod.fst).flatMap fun o => (M.effects.map Prod.fst).map fun s => o ++ [s]) := by
      rw [List.map_flatMap, List.flatMap_map]
      refine congrArg _ (funext fun b => ?_)
      simp [List.map_map, Function.comp]
    rw [hshape]
    exact nodup_extend _ _ hnd heff

/-- C1 (amended): for every well-formed Model satisfying the physical
normalization conditions (unit-mass preparation, effect-sum preserved by
every layer operation and by every instrument's branch sum), probability
evaluation of any circuit composed only of registered labels yields one
probability per outcome-tuple (distinct keys) and the probabilities sum to
1, hence to 1 within the 1e-9 tolerance. -/
theorem C1_probabilities_sum_to_one {n : ℕ} (M : Model n) (c : List String)
    (hwf : M.wellFormed) (hM : M.tracePreserving) (hreg : M.allRegistered c) :
    ∃ ps, M.probs c = .ok ps ∧ (ps.map Prod.fst).Nodup ∧
      |sumProbs ps - 1| ≤ 1/1000000000 := by
  obtain ⟨ps, hps, hsum⟩ := probs_sum_one M c hM hreg
  exact ⟨ps, hps, probs_keys_nodup M c hwf ps hps,
    by rw [hsum]; norm_num⟩

/-- A fully registered one-dimensional model whose single effect has mass
1/2 against the preparation: its probabilities sum to 1/2, not 1. -/
def M1c : Model 1 :=
  { prep := fun _ => 1
    effects := [("0", fun _ => (1:ℚ)/2)]
    operations := [("Gx", fun _ _ => 1)]
    instruments := [] }

/-- C1 as stated is false: a Model and a circuit of registered labels on
which the returned probabilities sum to 1/2, outside the 1e-9 tolerance
around 1. -/
theorem C1_counterexample :
    M1c.allRegistered ["Gx"] ∧
    M1c.probs ["Gx"] = .ok [(["0"], (1:ℚ)/2)] ∧
    ¬ (|sumProbs [(["0"], (1:ℚ)/2)] - 1| ≤ 1/1000000000) := by
  refine ⟨?_, ?_, ?_⟩
  · decide
  · simp [Model.probs, Model.evalLayers, M1c, alookup, Except.map, Matrix.mulVec,
      Matrix.dotProduct, Fin.sum_univ_one]
  · simp only [sumProbs, List.map_cons, List.map_nil, List.sum_cons, List.sum_nil]
    norm_num
    rw [abs_of_pos (by norm_num : (0:ℚ) < 1/2)]
    norm_num

/-- A physically normalized one-dimensional model with a complete two-effect
POVM, one layer operation and one two-branch instrument. -/
def M1w : Model 1 :=
  { prep := fun _ => 1
    effects := [("0", fun _ => (1:ℚ)/2), ("1", fun _ => (1:ℚ)/2)]
    operations := [("Gx", fun _ _ => 1)]
    instruments := [("Iz", [("p0", fun _ _ => (1:ℚ)/2), ("p1", fun _ _ => (1:ℚ)/2)])] }

theorem M1w_totalEffect : M1w.totalEffect = fun _ => 1 := by
  funext i
  simp [Model.totalEffect, M1w]
  norm_num

theorem M1w_tracePreserving : M1w.tracePreserving := by
  refine ⟨?_, ?_, ?_⟩
  · rw [M1w_totalEffect]
    simp [Matrix.dotProduct, M1w, Fin.sum_univ_one]
  · intro p hp
    rw [M1w_totalEffect]
    simp only [M1w, List.mem_singleton] at hp
    subst hp
    funext j
    simp [Matrix.vecMul, Matrix.dotProduct, Fin.sum_univ_one]
  · intro p hp
    rw [M1w_totalEffect]
    simp only [M1w, List.mem_singleton] at hp
    subst hp
    funext j
    simp [Matrix.vecMul, Matrix.dotProduct, Fin.sum_univ_one]
    norm_num

theorem C1_probabilities_sum_to_one_witness :
    (M1w.wellFormed ∧ M1w.tracePreserving ∧ M1w.allRegistered ["Gx", "Iz"]) ∧
    ∃ ps, M1w.probs ["Gx", "Iz"] = .ok ps ∧ (ps.map Prod.fst).Nodup ∧
      |sumProbs ps - 1| ≤ 1/1000000000 := by
  have hwf : M1w.wellFormed := by decide
  have hreg : M1w.allRegistered ["Gx", "Iz"] := by decide
  exact ⟨⟨hwf, M1w_tracePreserving, hreg⟩,
    C1_probabilities_sum_to_one M1w ["Gx", "Iz"] hwf M1w_tracePreserving hreg⟩

/-- The number of instrument layers of a circuit: labels that resolve to an
instrument (and not to a layer operation, which is checked first). -/
def Model.instrCount {n : ℕ} (M : Model n) (c : List String) : ℕ :=
  (c.filter fun l =>
    (alookup M.operations l).isNone && (alookup M.instruments l).isSome).length

/-- Every branch produced by the layer loop extends some starting branch by
exactly one instrument-outcome label per instrument layer consumed. -/
theorem evalLayers_fst_length {n : ℕ} (M : Model n) (c : List String)
    (bs res : List (Branch n)) (h : M.evalLayers c bs = .ok res) :
    ∀ p ∈ res, ∃ b ∈ bs, p.1.length = b.1.length + M.instrCount c := by
  induction c generalizing bs with
  | nil =>
    simp [Model.evalLayers] at h
    subst h
    exact fun p hp => ⟨p, hp, by simp [Model.instrCount]⟩
  | cons l rest ih =>
    intro p hp
    cases hcase : alookup M.operations l with
    | some G =>
      rw [Model.evalLayers, hcase] at h
      obtain ⟨b2, hb2, hlen⟩ := ih _ h p hp
      obtain ⟨b, hb, rfl⟩ := List.mem_map.mp hb2
      refine ⟨b, hb, ?_⟩
      rw [hlen]
      have : M.instrCount (l :: rest) = M.instrCount rest := by
        simp [Model.instrCount, List.filter_cons, hcase]
      rw [this]
    | none =>
      cases hcase2 : alookup M.instruments l with
      | some brs =>
        rw [Model.evalLayers, hcase, hcase2] at h
        obtain ⟨b2, hb2, hlen⟩ := ih _ h p hp
        obtain ⟨b, hb, hmem2⟩ := List.mem_flatMap.mp hb2
        obtain ⟨br, _, rfl⟩ := List.mem_map.mp hmem2
        refine ⟨b, hb, ?_⟩
        rw [hlen]
        have hc : M.instrCount (l :: rest) = M.instrCount rest + 1 := by
          simp [Model.instrCount, List.filter_cons, hcase, hcase2]
        simp [hc]
        omega
      | none =>
        rw [Model.evalLayers, hcase, hcase2] at h
        exact absurd h (by simp)

/-- Modelled from the spec: each key of a probability table splits as the
instrument-outcome labels (one per instrument layer) followed by a final
POVM effect label. -/
theorem probs_key_shape {n : ℕ} (M : Model n) (c : List String)
    (ps : List (Outcome × ℚ)) (h : M.probs c = .ok ps) :
    ∀ k ∈ ps.map Prod.fst, ∃ pre el, k = pre ++ [el] ∧
      pre.length = M.instrCount c ∧ el ∈ M.effects.map Prod.fst := by
  cases hres : M.evalLayers c [([], M.prep)] with
  | error l => simp [Model.probs, hres, Except.map] at h
  | ok res =>
    have hps : ps = res.flatMap fun b =>
        M.effects.map fun e => (b.1 ++ [e.1], dotProduct e.2 b.2) := by
      rw [Model.probs, hres] at h
      simpa [Except.map] using h.symm
    subst hps
    intro k hk
    obtain ⟨p, hp, rfl⟩ := List.mem_map.mp hk
    obtain ⟨b, hb, hmem2⟩ := List.mem_flatMap.mp hp
    obtain ⟨e, he, rfl⟩ := List.mem_map.mp hmem2
    obtain ⟨b0, hb0, hlen⟩ := evalLayers_fst_length M c _ _ hres b hb
    simp only [List.mem_singleton] at hb0
    refine ⟨b.1, e.1, rfl, ?_, List.mem_map.mpr ⟨e, he, rfl⟩⟩
    rw [hlen, hb0]
    simp

/-- C2 (amended): for every well-formed, physically normalized Model and
every registered circuit with at least one instrument layer, the
probability table is keyed by distinct outcome-tuples, each consisting of
one instrument-outcome label per instrument occurrence followed by a final
POVM effect label, and the probabilities over all tuples sum to 1. -/
theorem C2_instrument_branching {n : ℕ} (M : Model n) (c : List String)
    (hwf : M.wellFormed) (hM : M.tracePreserving) (hreg : M.allRegistered c)
    (hinst : 1 ≤ M.instrCount c) :
    ∃ ps, M.probs c = .ok ps ∧
      (∀ k ∈ ps.map Prod.fst, ∃ pre el, k = pre ++ [el] ∧
        pre.length = M.instrCount c ∧ el ∈ M.effects.map Prod.fst) ∧
      (ps.map Prod.fst).Nodup ∧
      sumProbs ps = 1 := by
  obtain ⟨ps, hps, hsum⟩ := probs_sum_one M c hM hreg
  exact ⟨ps, hps, probs_key_shape M c ps hps, probs_keys_nodup M c hwf ps hps, hsum⟩

/-- A registered one-branch instrument on a model whose sole effect has
mass 1/2: the (branch, effect) probabilities sum to 1/2. -/
def M2c : Model 1 :=
  { prep := fun _ => 1
    effects := [("0", fun _ => (1:ℚ)/2)]
    operations := []
    instruments := [("Iz", [("p0", fun _ _ => 1)])] }

/-- C2 as stated is false: a Model and a circuit holding one instrument
label whose (branch, final-effect) probabilities sum to 1/2, not 1. -/
theorem C2_counterexample :
    M2c.allRegistered ["Iz"] ∧ M2c.instrCount ["Iz"] = 1 ∧
    M2c.probs ["Iz"] = .ok [(["p0", "0"], (1:ℚ)/2)] ∧
    sumProbs [(["p0", "0"], (1:ℚ)/2)] ≠ 1 := by
  refine ⟨by decide, by decide, ?_, ?_⟩
  · simp [Model.probs, Model.evalLayers, M2c, alookup, Except.map, Matrix.mulVec,
      Matrix.dotProduct, Fin.sum_univ_one]
  · simp only [sumProbs, List.map_cons, List.map_nil, List.sum_cons, List.sum_nil]
    norm_num

theorem C2_instrument_branching_witness :
    (M1w.wellFormed ∧ M1w.tracePreserving ∧ M1w.allRegistered ["Iz", "Gx", "Iz"] ∧
      1 ≤ M1w.instrCount ["Iz", "Gx", "Iz"]) ∧
    ∃ ps, M1w.probs ["Iz", "Gx", "Iz"] = .ok ps ∧
      (∀ k ∈ ps.map Prod.fst, ∃ pre el, k = pre ++ [el] ∧
        pre.length = M1w.instrCount ["Iz", "Gx", "Iz"] ∧ el ∈ M1w.effects.map Prod.fst) ∧
      (ps.map Prod.fst).Nodup ∧
      sumProbs ps = 1 := by
  have hwf : M1w.wellFormed := by decide
  have hreg : M1w.allRegistered ["Iz", "Gx", "Iz"] := by decide
  have hinst : 1 ≤ M1w.instrCount ["Iz", "Gx", "Iz"] := by decide
  exact ⟨⟨hwf, M1w_tracePreserving, hreg, hinst⟩,
    C2_instrument_branching M1w ["Iz", "Gx", "Iz"] hwf M1w_tracePreserving hreg hinst⟩

/-- Modelled from the spec: a key accepted by `OutcomeLabelDict` — either a
full outcome tuple or a bare final-effect label standing for its 1-tuple. -/
inductive OutcomeKey where
  | bare (s : String)
  | tup (t : Outcome)

/-- Modelled from the spec: `OutcomeLabelDict` lookup; a bare (non-tuple)
key is converted to the corresponding 1-tuple before the lookup. -/
def olGet (ps : List (Outcome × ℚ)) : OutcomeKey → Option ℚ
  | .bare s => alookup ps [s]
  | .tup t => alookup ps t

/-- C10: probability tables are always keyed by outcome tuples; on a
circuit without instrument layers every key is a 1-tuple of a final POVM
effect label, and indexing with a bare effect label returns exactly the
value obtained by indexing with the corresponding 1-tuple. -/
theorem C10_outcome_tuple_keys {n : ℕ} (M : Model n) (c : List String)
    (hreg : M.allRegistered c) (hni : M.instrCount c = 0) :
    ∃ ps, M.probs c = .ok ps ∧
      (∀ k ∈ ps.map Prod.fst, ∃ el, k = [el] ∧ el ∈ M.effects.map Prod.fst) ∧
      (∀ s, olGet ps (.bare s) = olGet ps (.tup [s])) := by
  obtain ⟨ps, hps⟩ := probs_ok_of_allRegistered M c hreg
  refine ⟨ps, hps, ?_, fun s => rfl⟩
  intro k hk
  obtain ⟨pre, el, rfl, hlen, hel⟩ := probs_key_shape M c ps hps k hk
  rw [hni] at hlen
  have : pre = [] := List.length_eq_zero.mp hlen
  subst this
  exact ⟨el, rfl, hel⟩

theorem C10_outcome_tuple_keys_witness :
    (M1w.allRegistered ["Gx"] ∧ M1w.instrCount ["Gx"] = 0) ∧
    ∃ ps, M1w.probs ["Gx"] = .ok ps ∧
      (∀ k ∈ ps.map Prod.fst, ∃ el, k = [el] ∧ el ∈ M1w.effects.map Prod.fst) ∧
      (∀ s, olGet ps (.bare s) = olGet ps (.tup [s])) := by
  have hreg : M1w.allRegistered ["Gx"] := by decide
  have hni : M1w.instrCount ["Gx"] = 0 := by decide
  exact ⟨⟨hreg, hni⟩, C10_outcome_tuple_keys M1w ["Gx"] hreg hni⟩

/-- Modelled from the spec: the gauge transformation of a model by an
invertible operator `G` with explicit inverse `Ginv`: the preparation
becomes `G·prep`, every effect becomes `G`-inverse-transpose times the
effect, and every layer operator and instrument branch operator becomes
`G·op·G⁻¹`. -/
def Model.gaugeTransform {n : ℕ} (M : Model n) (G Ginv : Matrix (Fin n) (Fin n) ℚ) :
    Model n :=
  { prep := G.mulVec M.prep
    effects := M.effects.map fun e => (e.1, (Ginv.transpose).mulVec e.2)
    operations := M.operations.map fun p => (p.1, G * p.2 * Ginv)
    instruments := M.instruments.map fun p =>
      (p.1, (p.2).map fun br => (br.1, G * br.2 * Ginv)) }

theorem conj_mulVec {n : ℕ} (G Ginv A : Matrix (Fin n) (Fin n) ℚ)
    (hGG : Ginv * G = 1) (v : Fin n → ℚ) :
    (G * A * Ginv).mulVec (G.mulVec v) = G.mulVec (A.mulVec v) := by
  rw [Matrix.mulVec_mulVec, Matrix.mulVec_mulVec]
  rw [Matrix.mul_assoc, hGG, Matrix.mul_one]

theorem evalLayers_gauge {n : ℕ} (M : Model n) (G Ginv : Matrix (Fin n) (Fin n) ℚ)
    (hGG : Ginv * G = 1) (c : List String) (bs : List (Branch n)) :
    (M.gaugeTransform G Ginv).evalLayers c (bs.map fun b => (b.1, G.mulVec b.2)) =
      (M.evalLayers c bs).map fun res => res.map fun b => (b.1, G.mulVec b.2) := by
  induction c generalizing bs with
  | nil => simp [Model.evalLayers, Except.map]
  | cons l rest ih =>
    have hops : alookup (M.gaugeTransform G Ginv).operations l =
        (alookup M.operations l).map fun A => G * A * Ginv := by
      simpa [Model.gaugeTransform] using
        alookup_map (fun A => G * A * Ginv) M.operations l
    have hins : alookup (M.gaugeTransform G Ginv).instruments l =
        (alookup M.instruments l).map
          fun brs => brs.map fun br => (br.1, G * br.2 * Ginv) := by
      simpa [Model.gaugeTransform] using
        alookup_map (fun brs : List (String × Matrix (Fin n) (Fin n) ℚ) =>
          brs.map fun br => (br.1, G * br.2 * Ginv)) M.instruments l
    cases hcase : alookup M.operations l with
    | some A =>
      have hbr : ((bs.map fun b => (b.1, G.mulVec b.2)).map
            fun b => (b.1, (G * A * Ginv).mulVec b.2)) =
          ((bs.map fun b => (b.1, A.mulVec b.2)).map fun b => (b.1, G.mulVec b.2)) := by
        simp only [List.map_map]
        refine List.map_congr_left fun b _ => ?_
        simp [Function.comp, conj_mulVec G Ginv A hGG]
      have h1 : (M.gaugeTransform G Ginv).evalLayers (l :: rest)
            (bs.map fun b => (b.1, G.mulVec b.2)) =
          (M.gaugeTransform G Ginv).evalLayers rest
            ((bs.map fun b => (b.1, A.mulVec b.2)).map fun b => (b.1, G.mulVec b.2)) := by
        rw [Model.evalLayers, hops, hcase]
        exact congrArg _ hbr
      have h2 : M.evalLayers (l :: rest) bs =
          M.evalLayers rest (bs.map fun b => (b.1, A.mulVec b.2)) := by
        rw [Model.evalLayers, hcase]
      rw [h1, h2]
      exact ih _
    | none =>
      cases hcase2 : alookup M.instruments l with
      | some brs =>
        have hbr : ((bs.map fun b => (b.1, G.mulVec b.2)).flatMap fun b =>
              (brs.map fun br => (br.1, G * br.2 * Ginv)).map fun br =>
                (b.1 ++ [br.1], (br.2).mulVec b.2)) =
            ((bs.flatMap fun b => brs.map fun br =>
                (b.1 ++ [br.1], (br.2).mulVec b.2)).map fun b => (b.1, G.mulVec b.2)) := by
          rw [List.flatMap_map, List.map_flatMap]
          refine congrArg _ (funext fun b => ?_)
          simp only [Function.comp, List.map_map]
          refine List.map_congr_left fun br _ => ?_
          simp [conj_mulVec G Ginv br.2 hGG]
          rw [Matrix.mul_assoc, hGG, Matrix.mul_one]
        have h1 : (M.gaugeTransform G Ginv).evalLayers (l :: rest)
              (bs.map fun b => (b.1, G.mulVec b.2)) =
            (M.gaugeTransform G Ginv).evalLayers rest
              ((bs.flatMap fun b => brs.map fun br =>
                  (b.1 ++ [br.1], (br.2).mulVec b.2)).map fun b => (b.1, G.mulVec b.2)) := by
          rw [Model.evalLayers, hops, hcase, hins, hcase2]
          exact congrArg _ hbr
        have h2 : M.evalLayers (l :: rest) bs =
            M.evalLayers rest (bs.flatMap fun b => brs.map fun br =>
              (b.1 ++ [br.1], (br.2).mulVec b.2)) := by
          rw [Model.evalLayers, hcase, hcase2]
        rw [h1, h2]
        exact ih _
      | none =>
        have h1 : (M.gaugeTransform G Ginv).evalLayers (l :: rest)
              (bs.map fun b => (b.1, G.mulVec b.2)) = .error l := by
          rw [Model.evalLayers, hops, hcase, hins, hcase2]
          rfl
        have h2 : M.evalLayers (l :: rest) bs = .error l := by
          rw [Model.evalLayers, hcase, hcase2]
        rw [h1, h2]
        rfl

/-- C5: a gauge transformation by any operator `G` with two-sided-inverse
witness `Ginv * G = 1` leaves the entire probability table of every circuit
unchanged: same outcome-tuples, same probabilities, same errors. -/
theorem C5_gauge_invariance {n : ℕ} (M : Model n) (G Ginv : Matrix (Fin n) (Fin n) ℚ)
    (c : List String) (hGG : Ginv * G = 1) :
    (M.gaugeTransform G Ginv).probs c = M.probs c := by
  have hinit : [(([] : Outcome), (M.gaugeTransform G Ginv).prep)] =
      ([(([] : Outcome), M.prep)].map fun b => (b.1, G.mulVec b.2)) := by
    simp [Model.gaugeTransform]
  rw [Model.probs, Model.probs, hinit, evalLayers_gauge M G Ginv hGG c]
  cases hres : M.evalLayers c [([], M.prep)] with
  | error l => rfl
  | ok res =>
    simp only [Except.map]
    congr 1
    rw [List.flatMap_map]
    refine congrArg _ (funext fun b => ?_)
    simp only [Function.comp, Model.gaugeTransform, List.map_map]
    refine List.map_congr_left fun e _ => ?_
    simp only [Function.comp]
    congr 1
    rw [Matrix.mulVec_transpose, Matrix.dotProduct_mulVec, Matrix.vecMul_vecMul,
      hGG, Matrix.vecMul_one]

/-- A concrete invertible gauge operator and its inverse. -/
def G5 : Matrix (Fin 1) (Fin 1) ℚ := fun _ _ => 2

def Ginv5 : Matrix (Fin 1) (Fin 1) ℚ := fun _ _ => (1:ℚ)/2

theorem C5_gauge_invariance_witness :
    Ginv5 * G5 = 1 ∧
    (M1w.gaugeTransform G5 Ginv5).probs ["Gx", "Iz"] = M1w.probs ["Gx", "Iz"] := by
  have hGG : Ginv5 * G5 = 1 := by
    ext i j
    fin_cases i
    fin_cases j
    simp [Matrix.mul_apply, Fin.sum_univ_one, Matrix.one_apply, G5, Ginv5]
  exact ⟨hGG, C5_gauge_invariance M1w G5 Ginv5 ["Gx", "Iz"] hGG⟩

/-- Modelled from the spec: the outcome of the LGST singular-value
truncation step, with the kept leading singular values and the
truncation-rank warning flag (a warning, never an error). -/
structure LgstTruncation where
  kept : List ℚ
  rankWarning : Bool

/-- Modelled from the spec: the LGST solver (absent from `src/`, which
holds only its notebook callers and printed output) computes the singular
value decomposition of the empirical Gram matrix and truncates the
descending singular-value list to the first `d`, where `d` is the
Liouville-space dimension; kept values below the numerical-noise floor
only set the truncation-rank warning and the solve proceeds. -/
def lgstTruncate (svals : List ℚ) (d : ℕ) (noiseFloor : ℚ) : LgstTruncation :=
  { kept := svals.take d
    rankWarning := (svals.take d).any fun x => decide (x < noiseFloor) }

/-- C4: LGST truncates the singular values to exactly the first `d` (the
Liouville dimension), and small singular values merely set the
truncation-rank warning flag while the truncation result is unchanged. -/
theorem C4_lgst_truncation (svals : List ℚ) (d : ℕ) (noiseFloor : ℚ)
    (h : d ≤ svals.length) :
    (lgstTruncate svals d noiseFloor).kept = svals.take d ∧
    (lgstTruncate svals d noiseFloor).kept.length = d ∧
    ((lgstTruncate svals d noiseFloor).rankWarning = true ↔
      ∃ x ∈ (lgstTruncate svals d noiseFloor).kept, x < noiseFloor) := by
  refine ⟨rfl, ?_, ?_⟩
  · simp only [lgstTruncate, List.length_take]
    omega
  · simp [lgstTruncate, List.any_eq_true]

/-- The six noisy singular values printed by the notebook's LGST run,
rounded to rationals; the one-qubit Liouville dimension is 4. -/
def svalsLgst : List ℚ := [42441/10000, 11595/10000, 9652/10000, 9298/10000,
  493/10000, 252/10000]

theorem C4_lgst_truncation_witness :
    4 ≤ svalsLgst.length ∧
    (lgstTruncate svalsLgst 4 (1/100)).kept = svalsLgst.take 4 ∧
    (lgstTruncate svalsLgst 4 (1/100)).kept.length = 4 ∧
    ((lgstTruncate svalsLgst 4 (1/100)).rankWarning = true ↔
      ∃ x ∈ (lgstTruncate svalsLgst 4 (1/100)).kept, x < 1/100) := by
  have h : 4 ≤ svalsLgst.length := by
    simp [svalsLgst]
  exact ⟨h, C4_lgst_truncation svalsLgst 4 (1/100) h⟩

/-- A DataSet row: a sparse association of outcome tuples to nonnegative
counts; an outcome absent from the list was not recorded. -/
abbrev Row := List (Outcome × ℕ)

/-- Count lookup on a sparse row: an absent outcome key denotes count 0. -/
def countOf (row : Row) (o : Outcome) : ℕ := (alookup row o).getD 0

theorem alookup_eq_none_iff {κ α : Type} [DecidableEq κ] (l : List (κ × α)) (s : κ) :
    alookup l s = none ↔ s ∉ l.map Prod.fst := by
  induction l with
  | nil => simp [alookup]
  | cons p rest ih =>
    by_cases hk : p.1 = s
    · simp [alookup, hk]
    · simp [alookup, hk, ih, Ne.symm hk]

/-- C7: a DataSet row is a sparse mapping from outcome-tuple to
nonnegative count: looking up an outcome that was never recorded yields 0
(not an error), every count produced by a lookup is a recorded entry, and
iterating the stored counts visits only recorded outcomes. -/
theorem C7_sparse_row (row : Row) (o : Outcome) :
    (alookup row o = none → countOf row o = 0) ∧
    (∀ k, alookup row o = some k → (o, k) ∈ row) ∧
    (∀ p ∈ row, p.1 ∈ row.map Prod.fst) := by
  refine ⟨fun h => by simp [countOf, h], fun k hk => alookup_mem row o k hk, ?_⟩
  intro p hp
  exact List.mem_map.mpr ⟨p, hp, rfl⟩

/-- A concrete sparse row recording only the outcomes 00 and 10. -/
def row7 : Row := [(["00"], 50), (["10"], 50)]

theorem C7_sparse_row_witness :
    alookup row7 ["01"] = none ∧ countOf row7 ["01"] = 0 ∧
    (∀ p ∈ row7, p.1 ∈ row7.map Prod.fst) := by
  have h : alookup row7 ["01"] = none := by decide
  exact ⟨h, (C7_sparse_row row7 ["01"]).1 h, (C7_sparse_row row7 ["01"]).2.2⟩

/-- Modelled from the spec: writing one DataSet row under the declared
`## Columns =` outcome order: one cell per declared outcome column, holding
the recorded integer count or the not-measured marker `--` (here `none`)
when the outcome has no recorded entry. -/
def writeRow (cols : List Outcome) (row : Row) : List (Option ℕ) :=
  cols.map fun o => alookup row o

/-- Modelled from the spec: parsing one text row back into a sparse row:
every integer cell is recorded under its column's outcome and every `--`
cell leaves its outcome absent. -/
def parseRow (cols : List Outcome) (cells : List (Option ℕ)) : Row :=
  (cols.zip cells).filterMap fun pc => (pc.2).map fun k => (pc.1, k)

/-- Modelled from the spec: serializing a finalized DataSet to the text
format, one row per circuit in order. -/
def writeDataset (cols : List Outcome) (ds : List (String × Row)) :
    List (String × List (Option ℕ)) :=
  ds.map fun r => (r.1, writeRow cols r.2)

/-- Modelled from the spec: reparsing the text format into a DataSet. -/
def parseDataset (cols : List Outcome) (rows : List (String × List (Option ℕ))) :
    List (String × Row) :=
  rows.map fun r => (r.1, parseRow cols r.2)

theorem parseRow_writeRow_eq (cols : List Outcome) (row : Row) :
    parseRow cols (writeRow cols row) =
      cols.filterMap fun c => (alookup row c).map fun k => (c, k) := by
  unfold parseRow writeRow
  have hz : cols.zip (cols.map fun o => alookup row o) =
      cols.map fun c => (c, alookup row c) := by
    have := List.zip_map' (fun c : Outcome => c) (fun c => alookup row c) cols
    simpa using this
  rw [hz, List.filterMap_map]
  rfl

theorem alookup_filterMap_of_not_mem (cols : List Outcome) (row : Row) (o : Outcome)
    (ho : o ∉ cols) :
    alookup (cols.filterMap fun c => (alookup row c).map fun k => (c, k)) o = none := by
  induction cols with
  | nil => simp [alookup]
  | cons c cs ih =>
    have hco : o ∉ cs := fun h => ho (List.mem_cons_of_mem _ h)
    have hne : c ≠ o := fun h => ho (h ▸ List.mem_cons_self c cs)
    cases hc : alookup row c with
    | none => simpa [List.filterMap_cons, hc] using ih hco
    | some k => simpa [List.filterMap_cons, hc, alookup, hne] using ih hco

theorem alookup_filterMap_of_mem (cols : List Outcome) (row : Row) (o : Outcome)
    (hnd : cols.Nodup) (ho : o ∈ cols) :
    alookup (cols.filterMap fun c => (alookup row c).map fun k => (c, k)) o =
      alookup row o := by
  induction cols with
  | nil => simp at ho
  | cons c cs ih =>
    obtain ⟨hc1, hc2⟩ := List.nodup_cons.mp hnd
    by_cases hco : c = o
    · subst hco
      cases hc : alookup row c with
      | none =>
        simp only [List.filterMap_cons, hc, Option.map_none']
        exact alookup_filterMap_of_not_mem cs row c hc1
      | some k => simp [List.filterMap_cons, hc, alookup]
    · have ho2 : o ∈ cs := by
        rcases List.mem_cons.mp ho with h | h
        · exact absurd h.symm hco
        · exact h
      cases hc : alookup row c with
      | none => simpa [List.filterMap_cons, hc] using ih hc2 ho2
      | some k => simpa [List.filterMap_cons, hc, alookup, hco] using ih hc2 ho2

/-- Modelled from the spec: writing a row to the declared columns and
reparsing it preserves every per-outcome count. -/
theorem parseRow_writeRow (cols : List Outcome) (row : Row) (hnd : cols.Nodup)
    (hsub : ∀ p ∈ row, p.1 ∈ cols) (o : Outcome) :
    countOf (parseRow cols (writeRow cols row)) o = countOf row o := by
  rw [parseRow_writeRow_eq]
  by_cases ho : o ∈ cols
  · rw [countOf, alookup_filterMap_of_mem cols row o hnd ho, countOf]
  · rw [countOf, alookup_filterMap_of_not_mem cols row o ho]
    have : alookup row o = none := by
      cases hc : alookup row o with
      | none => rfl
      | some k => exact absurd (hsub _ (alookup_mem row o k hc)) ho
    rw [countOf, this]

theorem forall2_parse_write (cols : List Outcome) (hnd : cols.Nodup) :
    ∀ ds : List (String × Row), (∀ r ∈ ds, ∀ p ∈ r.2, p.1 ∈ cols) →
    List.Forall₂ (fun r1 r2 : String × Row =>
        r1.1 = r2.1 ∧ ∀ o, countOf r1.2 o = countOf r2.2 o)
      (ds.map fun r => (r.1, parseRow cols (writeRow cols r.2))) ds
  | [], _ => List.Forall₂.nil
  | r :: rest, hsub =>
    List.Forall₂.cons
      ⟨rfl, parseRow_writeRow cols r.2 hnd (hsub r (List.mem_cons_self r rest))⟩
      (forall2_parse_write cols hnd rest fun r2 h2 => hsub r2 (List.mem_cons_of_mem _ h2))

/-- C6: writing a finalized DataSet to the text format (header of declared
outcome columns, one row per circuit with one integer or `--` per column)
and reparsing reproduces a DataSet with the same circuits in the same
order and identical per-circuit, per-outcome counts. -/
theorem C6_dataset_round_trip (cols : List Outcome) (ds : List (String × Row))
    (hnd : cols.Nodup) (hsub : ∀ r ∈ ds, ∀ p ∈ r.2, p.1 ∈ cols) :
    (parseDataset cols (writeDataset cols ds)).map Prod.fst = ds.map Prod.fst ∧
    List.Forall₂ (fun r1 r2 : String × Row =>
        r1.1 = r2.1 ∧ ∀ o, countOf r1.2 o = countOf r2.2 o)
      (parseDataset cols (writeDataset cols ds)) ds := by
  have hshape : parseDataset cols (writeDataset cols ds) =
      ds.map fun r => (r.1, parseRow cols (writeRow cols r.2)) := by
    unfold parseDataset writeDataset
    rw [List.map_map]
    rfl
  constructor
  · rw [hshape, List.map_map]
    rfl
  · rw [hshape]
    exact forall2_parse_write cols hnd ds hsub

/-- A two-circuit DataSet over the columns 0 and 1; the second circuit has
no recorded count for outcome 1 (a not-measured `--` cell). -/
def ds6 : List (String × Row) :=
  [("Gx", [(["0"], 10), (["1"], 90)]), ("GxGy", [(["0"], 40)])]

theorem C6_dataset_round_trip_witness :
    ([["0"], ["1"]] : List Outcome).Nodup ∧
    (∀ r ∈ ds6, ∀ p ∈ r.2, p.1 ∈ ([["0"], ["1"]] : List Outcome)) ∧
    (parseDataset [["0"], ["1"]] (writeDataset [["0"], ["1"]] ds6)).map Prod.fst =
      ds6.map Prod.fst ∧
    List.Forall₂ (fun r1 r2 : String × Row =>
        r1.1 = r2.1 ∧ ∀ o, countOf r1.2 o = countOf r2.2 o)
      (parseDataset [["0"], ["1"]] (writeDataset [["0"], ["1"]] ds6)) ds6 := by
  have hnd : ([["0"], ["1"]] : List Outcome).Nodup := by decide
  have hsub : ∀ r ∈ ds6, ∀ p ∈ r.2, p.1 ∈ ([["0"], ["1"]] : List Outcome) := by decide
  obtain ⟨h1, h2⟩ := C6_dataset_round_trip [["0"], ["1"]] ds6 hnd hsub
  exact ⟨hnd, hsub, h1, h2⟩

theorem alookup_append_left {κ α : Type} [DecidableEq κ] (xs ys : List (κ × α)) (s : κ) :
    alookup (xs ++ ys) s =
      match alookup xs s with
      | some v => some v
      | none => alookup ys s := by
  induction xs with
  | nil => simp [alookup]
  | cons p rest ih =>
    by_cases hk : p.1 = s
    · simp [alookup, hk]
    · simp [alookup, hk, ih]

theorem alookup_append_of_ne {κ α : Type} [DecidableEq κ] (xs : List (κ × α))
    (lbl s : κ) (v : α) (h : s ≠ lbl) :
    alookup (xs ++ [(lbl, v)]) s = alookup xs s := by
  rw [alookup_append_left]
  cases hc : alookup xs s with
  | some w => rfl
  | none => simp [alookup, Ne.symm h]

/-- Modelled from the spec: the `Estimate` container — an ordered registry
of named Models together with a parallel registry of the gauge-optimization
parameter records that produced them.  The payload types are abstract. -/
structure Estimate (μ γ : Type) where
  models : List (String × μ)
  goparameters : List (String × γ)

/-- Modelled from the spec: `Estimate.add_gaugeoptimized` stores one new
gauge-optimized Model under the caller-chosen label, paired with the
gauge-optimization parameter record used to produce it. -/
def Estimate.add_gaugeoptimized {μ γ : Type} (est : Estimate μ γ) (goparams : γ)
    (mdl : μ) (label : String) : Estimate μ γ :=
  { models := est.models ++ [(label, mdl)]
    goparameters := est.goparameters ++ [(label, goparams)] }

/-- C8: adding a gauge-optimized model under a fresh label stores exactly
one new model and one new parameter record under that label and leaves
every previously stored model and parameter entry unchanged, so repeated
calls with different parameters each add their own labeled variant. -/
theorem C8_add_gaugeoptimized {μ γ : Type} (est : Estimate μ γ) (goparams : γ)
    (mdl : μ) (label : String)
    (hm : alookup est.models label = none)
    (hg : alookup est.goparameters label = none) :
    alookup (est.add_gaugeoptimized goparams mdl label).models label = some mdl ∧
    alookup (est.add_gaugeoptimized goparams mdl label).goparameters label = some goparams ∧
    (est.add_gaugeoptimized goparams mdl label).models.length = est.models.length + 1 ∧
    (est.add_gaugeoptimized goparams mdl label).goparameters.length =
      est.goparameters.length + 1 ∧
    (∀ l2, l2 ≠ label →
      alookup (est.add_gaugeoptimized goparams mdl label).models l2 =
        alookup est.models l2 ∧
      alookup (est.add_gaugeoptimized goparams mdl label).goparameters l2 =
        alookup est.goparameters l2) := by
  refine ⟨?_, ?_, by simp [Estimate.add_gaugeoptimized], by simp [Estimate.add_gaugeoptimized],
    fun l2 hne => ⟨alookup_append_of_ne _ _ _ _ hne, alookup_append_of_ne _ _ _ _ hne⟩⟩
  · rw [Estimate.add_gaugeoptimized, alookup_append_left, hm]
    simp [alookup]
  · rw [Estimate.add_gaugeoptimized, alookup_append_left, hg]
    simp [alookup]

/-- An Estimate already holding the default gauge optimization go0. -/
def est8 : Estimate String String :=
  { models := [("go0", "model go0")]
    goparameters := [("go0", "params go0")] }

theorem C8_add_gaugeoptimized_witness :
    alookup est8.models "Spam 1e-3" = none ∧
    alookup est8.goparameters "Spam 1e-3" = none ∧
    (alookup (est8.add_gaugeoptimized "params spam" "model spam" "Spam 1e-3").models
        "Spam 1e-3" = some "model spam" ∧
     alookup (est8.add_gaugeoptimized "params spam" "model spam" "Spam 1e-3").goparameters
        "Spam 1e-3" = some "params spam" ∧
     (est8.add_gaugeoptimized "params spam" "model spam" "Spam 1e-3").models.length =
       est8.models.length + 1 ∧
     (est8.add_gaugeoptimized "params spam" "model spam" "Spam 1e-3").goparameters.length =
       est8.goparameters.length + 1 ∧
     (∀ l2, l2 ≠ "Spam 1e-3" →
       alookup (est8.add_gaugeoptimized "params spam" "model spam" "Spam 1e-3").models l2 =
         alookup est8.models l2 ∧
       alookup (est8.add_gaugeoptimized "params spam" "model spam" "Spam 1e-3").goparameters
          l2 = alookup est8.goparameters l2)) := by
  have hm : alookup est8.models "Spam 1e-3" = none := by decide
  have hg : alookup est8.goparameters "Spam 1e-3" = none := by decide
  exact ⟨hm, hg, C8_add_gaugeoptimized est8 "params spam" "model spam" "Spam 1e-3" hm hg⟩

/-- Modelled from the notebook: the DataSet collision policy chosen at
construction time. -/
inductive CollisionAction where
  | aggregate
  | keepseparate
deriving DecidableEq

/-- Modelled from the notebook: a DataSet during ingestion — the collision
policy and the ordered circuit rows. -/
structure DataSet where
  collisionAction : CollisionAction
  rows : List (String × Row)

/-- Modelled from the notebook: the fictitious occurrence tag appended to
a colliding circuit key under keepseparate: the first free `#n` suffix. -/
def freshTag (keys : List String) (c : String) : String :=
  match (List.range (keys.length + 1)).find? (fun i =>
      !(decide ((c ++ "#" ++ toString (i + 1)) ∈ keys))) with
  | some i => c ++ "#" ++ toString (i + 1)
  | none => c

/-- Modelled from the notebook: `DataSet.add_count_dict`.  Under
"aggregate" adding counts for an already present circuit overwrites that
circuit's single row; under "keepseparate" the added counts are stored
under the circuit key extended by a fresh occurrence tag, retaining both
rows. -/
def DataSet.add_count_dict (ds : DataSet) (c : String) (counts : Row) : DataSet :=
  if (alookup ds.rows c).isSome then
    match ds.collisionAction with
    | .aggregate =>
        { ds with rows := ds.rows.map fun r => if r.1 = c then (c, counts) else r }
    | .keepseparate =>
        { ds with rows := ds.rows ++ [(freshTag (ds.rows.map Prod.fst) c, counts)] }
  else { ds with rows := ds.rows ++ [(c, counts)] }

theorem freshTag_first (keys : List String) (c : String)
    (h : (c ++ "#1") ∉ keys) : freshTag keys c = c ++ "#1" := by
  unfold freshTag
  have h1 : (c ++ "#" ++ toString (0 + 1)) = c ++ "#1" := by
    rw [String.append_assoc]
    rfl
  have hr : List.range (keys.length + 1) =
      0 :: (List.range keys.length).map Nat.succ := List.range_succ_eq_map keys.length
  rw [hr]
  have hp : (fun i => !(decide ((c ++ "#" ++ toString (i + 1)) ∈ keys))) 0 = true := by
    simp only []
    rw [h1]
    simp [h]
  rw [List.find?_cons_of_pos ((List.range keys.length).map Nat.succ) hp]
  exact h1

/-- C9: on a keepseparate DataSet, adding counts twice for the same fresh
circuit stores the second addition under the circuit key tagged with "#1"
so both rows are retained, while on an aggregate DataSet both additions
map to the single original circuit key and exactly one row for that
circuit remains. -/
theorem C9_collision_actions (rows : List (String × Row)) (c : String) (n1 n2 : Row)
    (hc : c ∉ rows.map Prod.fst) (ht : (c ++ "#1") ∉ rows.map Prod.fst) :
    (((DataSet.mk .keepseparate rows).add_count_dict c n1).add_count_dict c n2).rows =
      rows ++ [(c, n1), (c ++ "#1", n2)] ∧
    (((DataSet.mk .aggregate rows).add_count_dict c n1).add_count_dict c n2).rows =
      rows ++ [(c, n2)] ∧
    ((((DataSet.mk .aggregate rows).add_count_dict c n1).add_count_dict c n2).rows.map
      Prod.fst).count c = 1 := by
  have hnone : alookup rows c = none := (alookup_eq_none_iff rows c).mpr hc
  have hfirst : ∀ ca : CollisionAction,
      (DataSet.mk ca rows).add_count_dict c n1 = DataSet.mk ca (rows ++ [(c, n1)]) := by
    intro ca
    simp [DataSet.add_count_dict, hnone]
  have hsome : alookup (rows ++ [(c, n1)]) c = some n1 := by
    rw [alookup_append_left, hnone]
    simp [alookup]
  constructor
  · rw [hfirst .keepseparate]
    have : (DataSet.mk .keepseparate (rows ++ [(c, n1)])).add_count_dict c n2 =
        DataSet.mk .keepseparate ((rows ++ [(c, n1)]) ++
          [(freshTag ((rows ++ [(c, n1)]).map Prod.fst) c, n2)]) := by
      simp [DataSet.add_count_dict, hsome]
    rw [this]
    have hkeys : (rows ++ [(c, n1)]).map Prod.fst = rows.map Prod.fst ++ [c] := by
      simp
    have hnot : (c ++ "#1") ∉ (rows ++ [(c, n1)]).map Prod.fst := by
      rw [hkeys]
      intro hmem
      rcases List.mem_append.mp hmem with hmem | hmem
      · exact ht hmem
      · have heq : c ++ "#1" = c := List.mem_singleton.mp hmem
        have := congrArg String.length heq
        simp [String.length_append] at this
        exact absurd this (by decide)
    rw [freshTag_first _ _ hnot]
    simp
  constructor
  · rw [hfirst .aggregate]
    have : (DataSet.mk .aggregate (rows ++ [(c, n1)])).add_count_dict c n2 =
        DataSet.mk .aggregate ((rows ++ [(c, n1)]).map
          fun r => if r.1 = c then (c, n2) else r) := by
      simp [DataSet.add_count_dict, hsome]
    rw [this]
    simp only [List.map_append]
    congr 1
    · have : ∀ r ∈ rows, (if r.1 = c then (c, n2) else r) = r := by
        intro r hr
        have : r.1 ≠ c := fun h => hc (List.mem_map.mpr ⟨r, hr, h⟩)
        simp [this]
      rw [List.map_congr_left this]
      simp
    · simp
  · rw [hfirst .aggregate]
    have : (DataSet.mk .aggregate (rows ++ [(c, n1)])).add_count_dict c n2 =
        DataSet.mk .aggregate ((rows ++ [(c, n1)]).map
          fun r => if r.1 = c then (c, n2) else r) := by
      simp [DataSet.add_count_dict, hsome]
    rw [this]
    have hrw : ((rows ++ [(c, n1)]).map fun r => if r.1 = c then (c, n2) else r) =
        rows ++ [(c, n2)] := by
      simp only [List.map_append]
      congr 1
      · have : ∀ r ∈ rows, (if r.1 = c then (c, n2) else r) = r := by
          intro r hr
          have : r.1 ≠ c := fun h => hc (List.mem_map.mpr ⟨r, hr, h⟩)
          simp [this]
        rw [List.map_congr_left this]
        simp
      · simp
    rw [hrw]
    simp only [List.map_append, List.count_append]
    have h0 : (rows.map Prod.fst).count c = 0 := List.count_eq_zero.mpr hc
    rw [h0]
    simp [List.count_cons]

theorem C9_collision_actions_witness :
    ("GxGy" ∉ (([] : List (String × Row)).map Prod.fst)) ∧
    ("GxGy#1" ∉ (([] : List (String × Row)).map Prod.fst)) ∧
    ((((DataSet.mk .keepseparate []).add_count_dict "GxGy"
        [(["0"], 10), (["1"], 90)]).add_count_dict "GxGy"
        [(["0"], 40), (["1"], 60)]).rows =
      [("GxGy", [(["0"], 10), (["1"], 90)]),
       ("GxGy" ++ "#1", [(["0"], 40), (["1"], 60)])] ∧
     (((DataSet.mk .aggregate []).add_count_dict "GxGy"
        [(["0"], 10), (["1"], 90)]).add_count_dict "GxGy"
        [(["0"], 40), (["1"], 60)]).rows = [("GxGy", [(["0"], 40), (["1"], 60)])] ∧
     ((((DataSet.mk .aggregate []).add_count_dict "GxGy"
        [(["0"], 10), (["1"], 90)]).add_count_dict "GxGy"
        [(["0"], 40), (["1"], 60)]).rows.map Prod.fst).count "GxGy" = 1) := by
  have h1 : ("GxGy" ∉ (([] : List (String × Row)).map Prod.fst)) := by simp
  have h2 : ("GxGy#1" ∉ (([] : List (String × Row)).map Prod.fst)) := by simp
  have h3 := C9_collision_actions [] "GxGy" [(["0"], 10), (["1"], 90)]
    [(["0"], 40), (["1"], 60)] h1 h2
  exact ⟨h1, h2, h3⟩
